import Mathlib

deriving instance DecidableEq for Except

/-!
Verification of the `read_ctags` crate: the ctags line grammar (parser and
encoder), the tag-entry data model, and the tags-file locator.

Strings are embedded as `List Char`.  The crate's `CtagItem::encode`
(`ctag_item.rs`), `CtagItem::parse` (`ctag_item.rs`), and the whole of
`tags_reader.rs` are translated directly from the source.  The crate's
`parser`, `language` and `token_kind` modules are not part of the source
tree under verification, so they are modelled from the specification (each
such definition carries a doc comment saying so).
-/

namespace ReadCtags

/-- Modelled from the spec: `language.rs` is not under `src/`.  The spec
(§4.1) describes a closed enumeration of supported source languages; only
Ruby is named concretely (§8, the `.rb` literal scenario), so the model
carries that single language. -/
inductive Language where
  | Ruby
deriving DecidableEq

/-- Modelled from the spec: `language.rs` is not under `src/`.  §4.1: a pure,
stable lookup from a file path to `Option Language`, matching on the file
extension; unmatched paths yield `none`. -/
def Language.resolve (path : List Char) : Option Language :=
  if (".rb".toList).isSuffixOf path then some Language.Ruby else none

/-- Modelled from the spec: `token_kind.rs` is not under `src/`.  §4.2: a
kind is either the `Undefined` sentinel (no kind field was present at all)
or a kind that remembers the single character that denoted it on the wire,
so that `from_char` and `to_token_char` are exact mutual inverses even for
unrecognized codes.  The model therefore represents a present kind by its
wire character. -/
inductive TokenKind where
  | Undefined
  | Known (c : Char)
deriving DecidableEq

/-- Modelled from the spec: §4.2 `from_char(c, language)`.  Every present
kind character is representable and remembers `c`. -/
def TokenKind.from_char (c : Char) (_language : Option Language) : TokenKind :=
  TokenKind.Known c

/-- Modelled from the spec: §4.2 `to_token_char(kind, language)`, the exact
inverse of `from_char`; for a present kind it returns the stored character.
`encode` never applies it to `Undefined`. -/
def TokenKind.to_token_char : TokenKind → Option Language → Char
  | TokenKind.Undefined, _ => ' '
  | TokenKind.Known c, _ => c

/-- Strict lexicographic order on keys, the order of Rust's
`BTreeMap<String, String>` (byte order on UTF-8 strings coincides with
code-point order, which is `Char`'s order). -/
def keyLt : List Char → List Char → Bool
  | _, [] => false
  | [], _ :: _ => true
  | a :: as, b :: bs => if a < b then true else if a = b then keyLt as bs else false

/-- Insertion into the sorted association list that models
`BTreeMap<String, String>`: replaces on an equal key (so repeated inserts
are last-wins), otherwise keeps ascending key order. -/
def mapInsert (k v : List Char) : List (List Char × List Char) → List (List Char × List Char)
  | [] => [(k, v)]
  | (k', v') :: rest =>
    if k = k' then (k, v) :: rest
    else if keyLt k k' then (k, v) :: (k', v') :: rest
    else (k', v') :: mapInsert k v rest

/-- Builds the `BTreeMap` model from fields in textual order (duplicate keys
are last-wins, as repeated `BTreeMap::insert`). -/
def mapFromList (fields : List (List Char × List Char)) : List (List Char × List Char) :=
  fields.foldl (fun m p => mapInsert p.1 p.2 m) []

/-- Represents a single entry in a tags file (`CtagItem` in
`ctag_item.rs`); `tags` models the `BTreeMap` as a key-sorted association
list. -/
structure CtagItem where
  name : List Char
  file_path : List Char
  address : List Char
  language : Option Language
  tags : List (List Char × List Char)
  kind : TokenKind
deriving DecidableEq

/-- Model of `nom::error::ErrorKind`, the categorized reason carried by a
failed parse. -/
inductive ErrorKind where
  | Tag
deriving DecidableEq

/-- Model of `nom::Err<(String, nom::error::ErrorKind)>`: the unmatched
remainder together with the categorized reason. -/
structure NomErr where
  remainder : List Char
  kind : ErrorKind
deriving DecidableEq

/-- A struct capturing possible failures when attempting to parse a tags
file (`CtagsParseError` in `ctag_item.rs`). -/
inductive CtagsParseError where
  | IncompleteParse
  | FailedParse (e : NomErr)
deriving DecidableEq

/-- Modelled from the spec: `parser.rs` is not under `src/`.  Finds the
first occurrence of the address terminator sequence `;"` (§4.3, §9: the
terminator is the sole discriminator between the has-metadata and
no-metadata branches); returns the part before it and the part after it,
or `none` when the sequence does not occur. -/
def splitTerm : List Char → Option (List Char × List Char)
  | ';' :: '"' :: rest => some ([], rest)
  | c :: rest => (splitTerm rest).map (fun p => (c :: p.1, p.2))
  | [] => none

/-- Modelled from the spec: `parser.rs` is not under `src/`.  One extension
field (§4.3 field rule): `key:value` with a nonempty key containing no `:`
and no tab, the value running to the end of the tab-delimited segment. -/
def parseField (seg : List Char) : Option (List Char × List Char) :=
  match seg.dropWhile (fun c => c != ':') with
  | ':' :: v =>
    if (seg.takeWhile (fun c => c != ':')).isEmpty then none
    else some (seg.takeWhile (fun c => c != ':'), v)
  | _ => none

/-- Modelled from the spec: `parser.rs` is not under `src/`.  Parses every
tab-delimited segment as an extension field, failing if any segment is not
a field. -/
def parseSegs : List (List Char) → Option (List (List Char × List Char))
  | [] => some []
  | seg :: rest =>
    match parseField seg, parseSegs rest with
    | some f, some fs => some (f :: fs)
    | _, _ => none

/-- Modelled from the spec: `parser.rs` is not under `src/`.  A nonempty
tab-separated extension-field list (§4.3; the empty input has one empty
segment and so is rejected). -/
def parseFields (l : List Char) : Option (List (List Char × List Char)) :=
  parseSegs (l.splitOn '\t')

/-- Modelled from the spec: `parser.rs` is not under `src/`.  The metadata
after `address;"` and one tab: either a single kind character (§4.3 form 3),
a kind character, a tab and fields (form 4), or fields alone (form 5, kind
omitted).  A kind character may not be a tab.  The alternatives are
disjoint because a field's key is nonempty and a kind character is a single
character followed by a tab or the end of the line. -/
def parseTail : List Char → Option (Option Char × List (List Char × List Char))
  | [c] => if c = '\t' then none else some (some c, [])
  | c :: '\t' :: rest =>
    if c = '\t' then none
    else (parseFields rest).map (fun flds => (some c, flds))
  | tail => (parseFields tail).map (fun flds => (none, flds))

/-- Which of the spec's five line alternatives (§4.3, §6) matched. -/
inductive LineForm where
  | minimal
  | terminated
  | kinded
  | fielded
  | kindlessFielded
deriving DecidableEq

/-- The syntactic content of one parsed line, before kind and language
resolution and before the field map is normalized. -/
structure RawLine where
  name : List Char
  path : List Char
  address : List Char
  kindc : Option Char
  fields : List (List Char × List Char)
deriving DecidableEq

/-- Packages a parsed raw line into a `CtagItem` (§4.3: language resolved
from the path via §4.1, kind resolved via §4.2, fields collected into the
sorted map). -/
def mkItem (r : RawLine) : CtagItem :=
  { name := r.name
    file_path := r.path
    address := r.address
    language := Language.resolve r.path
    tags := mapFromList r.fields
    kind :=
      match r.kindc with
      | none => TokenKind.Undefined
      | some c => TokenKind.from_char c (Language.resolve r.path) }

/-- Modelled from the spec: `parser.rs` is not under `src/`.  One line of
the grammar (§4.3, §6), alternatives discriminated by the `;"` terminator
(§9).  Returns the form that matched, the raw line, and the unconsumed
residue of the line: the residue is empty on a full match, and nonempty
when only the `name \t path \t address;"` part of the line could be
consumed (the grammar matched a proper prefix). -/
def lineParseF (line : List Char) : Option (LineForm × RawLine × List Char) :=
  match line.dropWhile (fun c => c != '\t') with
  | '\t' :: r2 =>
    if (line.takeWhile (fun c => c != '\t')).isEmpty then none
    else
      match r2.dropWhile (fun c => c != '\t') with
      | '\t' :: r4 =>
        if (r2.takeWhile (fun c => c != '\t')).isEmpty then none
        else
          match splitTerm r4 with
          | none =>
            some (LineForm.minimal,
              ⟨line.takeWhile (fun c => c != '\t'), r2.takeWhile (fun c => c != '\t'),
                r4, none, []⟩, [])
          | some (addr, []) =>
            some (LineForm.terminated,
              ⟨line.takeWhile (fun c => c != '\t'), r2.takeWhile (fun c => c != '\t'),
                addr, none, []⟩, [])
          | some (addr, '\t' :: tail) =>
            match parseTail tail with
            | some (some c, flds) =>
              some (if flds.isEmpty then LineForm.kinded else LineForm.fielded,
                ⟨line.takeWhile (fun c => c != '\t'), r2.takeWhile (fun c => c != '\t'),
                  addr, some c, flds⟩, [])
            | some (none, flds) =>
              some (LineForm.kindlessFielded,
                ⟨line.takeWhile (fun c => c != '\t'), r2.takeWhile (fun c => c != '\t'),
                  addr, none, flds⟩, [])
            | none =>
              some (LineForm.terminated,
                ⟨line.takeWhile (fun c => c != '\t'), r2.takeWhile (fun c => c != '\t'),
                  addr, none, []⟩, '\t' :: tail)
          | some (addr, after) =>
            some (LineForm.terminated,
              ⟨line.takeWhile (fun c => c != '\t'), r2.takeWhile (fun c => c != '\t'),
                addr, none, []⟩, after)
      | _ => none
  | _ => none

/-- Modelled from the spec: `parser.rs` is not under `src/`.  One line of
the grammar as a `CtagItem` plus unconsumed residue. -/
def lineParse (line : List Char) : Option (CtagItem × List Char) :=
  (lineParseF line).map (fun p => (mkItem p.2.1, p.2.2))

/-- Modelled from the spec: `parser.rs` is not under `src/`.  The document
parser's worker: consumes `\n`-separated lines (§4.3), accumulating entries
into a set.  A line matching no alternative is a hard error carrying the
remainder; a line only a prefix of which matches stops the parse
successfully with that residue unconsumed; a trailing empty line from a
final `\n` is tolerated.  `fuel` is at least `input.length + 1` at every
call from `Parser.parse`, and every recursive call consumes at least one
character, so the zero-fuel arm is unreachable. -/
def goF : Nat → List Char → Finset CtagItem → Except NomErr (List Char × Finset CtagItem)
  | _, [], acc => Except.ok ([], acc)
  | 0, c :: input, acc => Except.ok (c :: input, acc)
  | fuel + 1, c :: input, acc =>
    match lineParse ((c :: input).takeWhile (fun x => x != '\n')) with
    | none => Except.error ⟨c :: input, ErrorKind.Tag⟩
    | some (e, []) =>
      match (c :: input).dropWhile (fun x => x != '\n') with
      | [] => Except.ok ([], insert e acc)
      | _ :: rest2 => goF fuel rest2 (insert e acc)
    | some (e, residue) =>
      Except.ok (residue ++ (c :: input).dropWhile (fun x => x != '\n'), insert e acc)

namespace Parser

/-- Modelled from the spec: `parser.rs` is not under `src/`.  The document
parser `parser::parse`: on success returns the unconsumed input together
with the set of entries, mirroring nom's `IResult`. -/
def parse (input : List Char) : Except NomErr (List Char × Finset CtagItem) :=
  goF (input.length + 1) input ∅

end Parser

/-- Parse tags generated by Universal Ctags (`CtagItem::parse` in
`ctag_item.rs`): succeeds only when the grammar consumed the entire input;
a successful inner parse with leftover input is `IncompleteParse`, an inner
failure is `FailedParse` carrying the inner error. -/
def CtagItem.parse (input : List Char) : Except CtagsParseError (Finset CtagItem) :=
  match Parser.parse input with
  | Except.ok ([], outcome) => Except.ok outcome
  | Except.ok _ => Except.error CtagsParseError.IncompleteParse
  | Except.error e => Except.error (CtagsParseError.FailedParse e)

/-- The `tags` local of `CtagItem::encode` (`ctag_item.rs`): each field
rendered as `key:value`, joined with tabs, in stored (ascending-key) map
order. -/
def renderTags (tags : List (List Char × List Char)) : List Char :=
  ['\t'].intercalate (tags.map (fun p => p.1 ++ ':' :: p.2))

/-- Encode a `CtagItem` into its line representation within a tags file
(`CtagItem::encode` in `ctag_item.rs`), selecting among the four output
shapes by the number of fields and the kind, exactly as the source's
`match (self.tags.len(), &self.kind)`. -/
def CtagItem.encode (self : CtagItem) : List Char :=
  let tags := renderTags self.tags
  match self.tags.length, self.kind with
  | 0, TokenKind.Undefined =>
    self.name ++ '\t' :: self.file_path ++ '\t' :: self.address
  | _, TokenKind.Undefined =>
    self.name ++ '\t' :: self.file_path ++ '\t' :: self.address ++ ';' :: '"' :: '\t' :: tags
  | 0, kind =>
    self.name ++ '\t' :: self.file_path ++ '\t' :: self.address ++ ';' :: '"' :: '\t' ::
      [kind.to_token_char self.language]
  | _, kind =>
    self.name ++ '\t' :: self.file_path ++ '\t' :: self.address ++ ';' :: '"' :: '\t' ::
      kind.to_token_char self.language :: '\t' :: tags

/-- `TagsReader` (`tags_reader.rs`): an ordered list of candidate tags-file
paths. -/
structure TagsReader where
  filenames : List (List Char)

/-- Model of `std::io::ErrorKind` (only the variant the source
constructs). -/
inductive IOErrorKind where
  | Other
deriving DecidableEq

/-- Model of `std::io::Error`: a kind and a message. -/
structure IOError where
  kind : IOErrorKind
  msg : List Char
deriving DecidableEq

/-- A struct capturing possible failures when attempting to find and read
tags files (`ReadCtagsError` in `tags_reader.rs`). -/
inductive ReadCtagsError where
  | NoCtagsFile (e : List (List Char) × IOError)
  | IncompleteParse
  | FailedParse (e : NomErr)
deriving DecidableEq

/-- The `Default` instance for `TagsReader` (`tags_reader.rs`). -/
def TagsReader.default : TagsReader :=
  { filenames := [".git/tags".toList, "tags".toList, "tmp/tags".toList] }

/-- `TagsReader::first_success` (`tags_reader.rs`): the source initializes
`outcome` to `Err(default)`, overwrites it with `f x` for each element, and
breaks out of the loop on the first `Ok`.  The fold is that loop: an `Ok`
outcome is kept unchanged (the loop has stopped), an `Err` outcome is
overwritten by the next `f x`.  The result is the first success, else the
failure of the last element, else `default` for the empty list. -/
def first_success {α β γ : Type} (values : List α) (dflt : γ) (f : α → Except γ β) :
    Except γ β :=
  values.foldl
    (fun outcome x =>
      match outcome with
      | Except.ok b => Except.ok b
      | Except.error _ => f x)
    (Except.error dflt)

/-- `TagsReader::read` (`tags_reader.rs`): tries the filenames through
`first_success`, with the synthesized placeholder error as the default;
on failure the error is paired with the full filename list.  File-system
reading (`TagsReader::run`, a single `fs::read_to_string` call) is the
external boundary, passed in as `fs`. -/
def TagsReader.read (fs : List Char → Except IOError (List Char)) (r : TagsReader) :
    Except (List (List Char) × IOError) (List Char) :=
  (first_success r.filenames ⟨IOErrorKind.Other, "No file provided".toList⟩ fs).mapError
    (fun e => (r.filenames, e))

/-- `TagsReader::load` (`tags_reader.rs`): reads the first available file
and parses it, with the same success and error selection as the source's
match on the parse result. -/
def TagsReader.load (fs : List Char → Except IOError (List Char)) (r : TagsReader) :
    Except ReadCtagsError (Finset CtagItem) :=
  match TagsReader.read fs r with
  | Except.ok contents =>
    match Parser.parse contents with
    | Except.ok ([], outcome) => Except.ok outcome
    | Except.ok _ => Except.error ReadCtagsError.IncompleteParse
    | Except.error e => Except.error (ReadCtagsError.FailedParse e)
  | Except.error e => Except.error (ReadCtagsError.NoCtagsFile e)

/-- The map invariant of §3: the extension-field association list is
strictly ascending by key. -/
def tagsSorted (m : List (List Char × List Char)) : Prop :=
  List.Pairwise (fun p q => keyLt p.1 q.1 = true) m

instance (m : List (List Char × List Char)) : Decidable (tagsSorted m) := by
  unfold tagsSorted; infer_instance

/-- Wire form 1 of §6: `NAME \t PATH \t ADDRESS`. -/
def minimalForm (e : CtagItem) : List Char :=
  e.name ++ '\t' :: e.file_path ++ '\t' :: e.address

/-- Wire form 3 of §6: `NAME \t PATH \t ADDRESS;" \t KINDCHAR`. -/
def kindedForm (e : CtagItem) : List Char :=
  e.name ++ '\t' :: e.file_path ++ '\t' :: e.address ++ ';' :: '"' :: '\t' ::
    [e.kind.to_token_char e.language]

/-- Wire form 5 of §6: `NAME \t PATH \t ADDRESS;" \t FIELD ...` with no kind
character. -/
def kindlessFieldedForm (e : CtagItem) : List Char :=
  e.name ++ '\t' :: e.file_path ++ '\t' :: e.address ++ ';' :: '"' :: '\t' :: renderTags e.tags

/-- Wire form 4 of §6: `NAME \t PATH \t ADDRESS;" \t KINDCHAR \t FIELD ...`. -/
def fieldedForm (e : CtagItem) : List Char :=
  e.name ++ '\t' :: e.file_path ++ '\t' :: e.address ++ ';' :: '"' :: '\t' ::
    e.kind.to_token_char e.language :: '\t' :: renderTags e.tags

/-- Everything `encode` emits before the field list, for an entry with a
nonempty field map. -/
def fieldsFront (e : CtagItem) : List Char :=
  match e.kind with
  | TokenKind.Undefined => e.name ++ '\t' :: e.file_path ++ '\t' :: e.address ++ [';', '"', '\t']
  | k =>
    e.name ++ '\t' :: e.file_path ++ '\t' :: e.address ++
      [';', '"', '\t', k.to_token_char e.language, '\t']

/-- A concrete file-system oracle used to exercise the locator: only the
path `B` is readable. -/
def fsDemo : List Char → Except IOError (List Char) :=
  fun p =>
    if p = "B".toList then Except.ok "n\tf\t1".toList
    else Except.error ⟨IOErrorKind.Other, "missing".toList⟩

/-- The raw content of the spec's §8 literal-scenario line. -/
def rubyRaw : RawLine :=
  ⟨"ClassMethod".toList, "path/to/file.rb".toList, ['2'], some 'S',
    [("class".toList, "File".toList), ("module".toList, "Foobar".toList)]⟩

/-- The spec's §8 literal-scenario line. -/
def rubyLine : List Char :=
  "ClassMethod\tpath/to/file.rb\t2;\"\tS\tclass:File\tmodule:Foobar".toList

/-! ### Order lemmas for `keyLt` -/

theorem keyLt_irrefl (a : List Char) : keyLt a a = false := by
  induction a with
  | nil => rfl
  | cons c cs ih => simp [keyLt, ih]

theorem keyLt_ne {a b : List Char} (h : keyLt a b = true) : a ≠ b := by
  rintro rfl
  simp [keyLt_irrefl] at h

theorem keyLt_asymm {a b : List Char} (h : keyLt a b = true) : keyLt b a = false := by
  induction a generalizing b with
  | nil =>
    cases b with
    | nil => simp [keyLt] at h
    | cons d ds => simp [keyLt]
  | cons c cs ih =>
    cases b with
    | nil => simp [keyLt] at h
    | cons d ds =>
      by_cases hcd : c < d
      · have h1 : ¬ d < c := lt_asymm hcd
        have h2 : d ≠ c := ne_of_gt hcd
        simp [keyLt, h1, h2]
      · by_cases hce : c = d
        · subst hce
          simp only [keyLt, if_neg hcd, if_pos rfl] at h
          simp only [keyLt, if_neg hcd, if_pos rfl]
          exact ih h
        · simp [keyLt, hcd, hce] at h

theorem keyLt_trans {a b c : List Char} (h1 : keyLt a b = true) (h2 : keyLt b c = true) :
    keyLt a c = true := by
  induction a generalizing b c with
  | nil =>
    cases c with
    | nil =>
      cases b with
      | nil => simp [keyLt] at h1
      | cons d ds => simp [keyLt] at h2
    | cons e es => simp [keyLt]
  | cons x xs ih =>
    cases b with
    | nil => simp [keyLt] at h1
    | cons y ys =>
      cases c with
      | nil => simp [keyLt] at h2
      | cons z zs =>
        by_cases hxy : x < y
        · by_cases hyz : y < z
          · simp [keyLt, lt_trans hxy hyz]
          · by_cases hyez : y = z
            · subst hyez; simp [keyLt, hxy]
            · simp [keyLt, hyz, hyez] at h2
        · by_cases hxey : x = y
          · subst hxey
            simp only [keyLt, if_neg hxy, if_pos rfl] at h1
            by_cases hyz : x < z
            · simp [keyLt, hyz]
            · by_cases hyez : x = z
              · subst hyez
                simp only [keyLt, if_neg hxy, if_pos rfl] at h2 ⊢
                exact ih h1 h2
              · simp [keyLt, hyz, hyez] at h2
          · simp [keyLt, hxy, hxey] at h1

theorem keyLt_total {a b : List Char} (h : a ≠ b) :
    keyLt a b = true ∨ keyLt b a = true := by
  induction a generalizing b with
  | nil =>
    cases b with
    | nil => exact absurd rfl h
    | cons d ds => left; simp [keyLt]
  | cons c cs ih =>
    cases b with
    | nil => right; simp [keyLt]
    | cons d ds =>
      rcases lt_trichotomy c d with hlt | heq | hgt
      · left; simp [keyLt, hlt]
      · subst heq
        have hne : cs ≠ ds := by
          rintro rfl; exact h rfl
        rcases ih hne with h1 | h1
        · left; simp [keyLt, lt_irrefl, h1]
        · right; simp [keyLt, lt_irrefl, h1]
      · right; simp [keyLt, hgt]

/-! ### Lemmas about the sorted field map -/

theorem mem_mapInsert {k v : List Char} {m : List (List Char × List Char)}
    {q : List Char × List Char} (h : q ∈ mapInsert k v m) : q = (k, v) ∨ q ∈ m := by
  induction m with
  | nil => simpa [mapInsert] using h
  | cons p rest ih =>
    obtain ⟨k', v'⟩ := p
    simp only [mapInsert] at h
    split_ifs at h with h1 h2
    · rcases List.mem_cons.mp h with h3 | h3
      · left; exact h3
      · right; exact List.mem_cons_of_mem _ h3
    · rcases List.mem_cons.mp h with h3 | h3
      · left; exact h3
      · right; exact h3
    · rcases List.mem_cons.mp h with h3 | h3
      · right; exact h3 ▸ List.mem_cons_self _ _
      · rcases ih h3 with h4 | h4
        · left; exact h4
        · right; exact List.mem_cons_of_mem _ h4

theorem mapInsert_sorted {k v : List Char} {m : List (List Char × List Char)}
    (hm : tagsSorted m) : tagsSorted (mapInsert k v m) := by
  induction m with
  | nil => simp [mapInsert, tagsSorted]
  | cons p rest ih =>
    obtain ⟨k', v'⟩ := p
    rw [tagsSorted, List.pairwise_cons] at hm
    simp only [mapInsert]
    split_ifs with h1 h2
    · subst h1
      exact List.pairwise_cons.mpr ⟨hm.1, hm.2⟩
    · refine List.pairwise_cons.mpr ⟨?_, List.pairwise_cons.mpr ⟨hm.1, hm.2⟩⟩
      intro q hq
      rcases List.mem_cons.mp hq with h3 | h3
      · subst h3; exact h2
      · exact keyLt_trans h2 (hm.1 q h3)
    · refine List.pairwise_cons.mpr ⟨?_, ih hm.2⟩
      intro q hq
      rcases mem_mapInsert hq with h3 | h3
      · subst h3
        rcases keyLt_total (fun e => h1 e.symm) with h4 | h4
        · exact h4
        · exact absurd h4 (by simp [h2])
      · exact hm.1 q h3

theorem mapFromList_sorted (fs : List (List Char × List Char)) :
    tagsSorted (mapFromList fs) := by
  suffices h : ∀ m, tagsSorted m →
      tagsSorted (fs.foldl (fun m p => mapInsert p.1 p.2 m) m) by
    exact h [] (by simp [tagsSorted])
  induction fs with
  | nil => intro m hm; simpa using hm
  | cons f fs' ih =>
    intro m hm
    exact ih _ (mapInsert_sorted hm)

theorem mapInsert_last {k v : List Char} {m : List (List Char × List Char)}
    (h : ∀ p ∈ m, keyLt p.1 k = true) : mapInsert k v m = m ++ [(k, v)] := by
  induction m with
  | nil => rfl
  | cons p rest ih =>
    obtain ⟨k', v'⟩ := p
    have hlt : keyLt k' k = true := h (k', v') (List.mem_cons_self _ _)
    have hne : ¬ k = k' := fun e => keyLt_ne hlt e.symm
    have hnlt : ¬ keyLt k k' = true := by simp [keyLt_asymm hlt]
    simp only [mapInsert, if_neg hne, if_neg hnlt, List.cons_append, List.cons.injEq, true_and]
    exact ih (fun p hp => h p (List.mem_cons_of_mem _ hp))

theorem mapFromList_sorted_id {fs : List (List Char × List Char)}
    (hs : tagsSorted fs) : mapFromList fs = fs := by
  suffices h : ∀ (gs : List (List Char × List Char)) m,
      (∀ p ∈ m, ∀ q ∈ gs, keyLt p.1 q.1 = true) → tagsSorted gs →
      gs.foldl (fun m p => mapInsert p.1 p.2 m) m = m ++ gs by
    simpa using h fs [] (by simp) hs
  intro gs
  induction gs with
  | nil => intro m _ _; simp
  | cons f fs' ih =>
    intro m hmf hsort
    rw [tagsSorted, List.pairwise_cons] at hsort
    have hstep : mapInsert f.1 f.2 m = m ++ [f] := by
      have := mapInsert_last (k := f.1) (v := f.2) (m := m)
        (fun p hp => hmf p hp f (List.mem_cons_self _ _))
      simpa using this
    simp only [List.foldl_cons, hstep]
    rw [ih (m ++ [f]) ?_ hsort.2]
    · simp
    · intro p hp q hq
      rcases List.mem_append.mp hp with h1 | h1
      · exact hmf p h1 q (List.mem_cons_of_mem _ hq)
      · have : p = f := by simpa using h1
        subst this
        exact hsort.1 q hq

theorem mapInsert_comm {k1 v1 k2 v2 : List Char} {m : List (List Char × List Char)}
    (h : k1 ≠ k2) :
    mapInsert k2 v2 (mapInsert k1 v1 m) = mapInsert k1 v1 (mapInsert k2 v2 m) := by
  induction m with
  | nil =>
    rcases keyLt_total h with hlt | hlt
    · simp [mapInsert, h, Ne.symm h, hlt, keyLt_asymm hlt]
    · simp [mapInsert, h, Ne.symm h, hlt, keyLt_asymm hlt]
  | cons p rest ih =>
    obtain ⟨k, v⟩ := p
    by_cases e1 : k1 = k
    · subst e1
      rcases keyLt_total h with hlt | hlt
      · simp [mapInsert, h, Ne.symm h, hlt, keyLt_asymm hlt]
      · simp [mapInsert, h, Ne.symm h, hlt, keyLt_asymm hlt]
    · by_cases e2 : k2 = k
      · subst e2
        rcases keyLt_total h with hlt | hlt
        · simp [mapInsert, h, Ne.symm h, e1, hlt, keyLt_asymm hlt]
        · simp [mapInsert, h, Ne.symm h, e1, hlt, keyLt_asymm hlt]
      · by_cases l1 : keyLt k1 k = true
        · by_cases l2 : keyLt k2 k = true
          · rcases keyLt_total h with hlt | hlt
            · simp [mapInsert, e1, e2, l1, l2, h, Ne.symm h, hlt, keyLt_asymm hlt]
            · simp [mapInsert, e1, e2, l1, l2, h, Ne.symm h, hlt, keyLt_asymm hlt]
          · have hk2 : keyLt k k2 = true := by
              rcases keyLt_total e2 with h4 | h4
              · exact absurd h4 (by simp [l2])
              · exact h4
            have h12 : keyLt k1 k2 = true := keyLt_trans l1 hk2
            simp [mapInsert, e1, e2, l1, l2, h, Ne.symm h, h12, keyLt_asymm h12]
        · by_cases l2 : keyLt k2 k = true
          · have hk1 : keyLt k k1 = true := by
              rcases keyLt_total e1 with h4 | h4
              · exact absurd h4 (by simp [l1])
              · exact h4
            have h21 : keyLt k2 k1 = true := keyLt_trans l2 hk1
            simp [mapInsert, e1, e2, l1, l2, h, Ne.symm h, h21, keyLt_asymm h21]
          · simp [mapInsert, e1, e2, l1, l2, ih]

theorem mapFromList_perm {fs1 fs2 : List (List Char × List Char)} (hp : fs1.Perm fs2)
    (hnd : List.Pairwise (fun p q => p.1 ≠ q.1) fs1) :
    mapFromList fs1 = mapFromList fs2 := by
  unfold mapFromList
  refine hp.foldl_eq' ?_ []
  intro x hx y hy z
  by_cases hxy : x = y
  · subst hxy; rfl
  · have hne : x.1 ≠ y.1 :=
      List.Pairwise.forall (fun a b hab => hab.symm) hnd hx hy hxy
    exact mapInsert_comm hne

/-! ### Splitting character lists -/

theorem bne_all {t : Char} {l : List Char} (h : t ∉ l) : ∀ x ∈ l, (x != t) = true := by
  intro x hx
  simp only [bne_iff_ne, ne_eq]
  rintro rfl
  exact h hx

theorem takeWhile_all {p : Char → Bool} {l : List Char} (h : ∀ x ∈ l, p x = true) :
    l.takeWhile p = l ∧ l.dropWhile p = [] := by
  induction l with
  | nil => simp
  | cons c cs ih =>
    have hc : p c = true := h c (List.mem_cons_self _ _)
    have ih2 := ih (fun x hx => h x (List.mem_cons_of_mem _ hx))
    simp [List.takeWhile_cons, List.dropWhile_cons, hc, ih2.1, ih2.2]

theorem takeWhile_app {p : Char → Bool} {a : List Char} {c : Char} {b : List Char}
    (ha : ∀ x ∈ a, p x = true) (hc : p c = false) :
    (a ++ c :: b).takeWhile p = a ∧ (a ++ c :: b).dropWhile p = c :: b := by
  induction a with
  | nil => simp [List.takeWhile_cons, List.dropWhile_cons, hc]
  | cons d ds ih =>
    have hd : p d = true := ha d (List.mem_cons_self _ _)
    have ih2 := ih (fun x hx => ha x (List.mem_cons_of_mem _ hx))
    simp [List.takeWhile_cons, List.dropWhile_cons, hd, ih2.1, ih2.2]

theorem dropWhile_head_false {p : Char → Bool} {l r : List Char} {c : Char}
    (h : l.dropWhile p = c :: r) : p c = false := by
  induction l with
  | nil => simp at h
  | cons d ds ih =>
    by_cases hd : p d = true
    · rw [List.dropWhile_cons_of_pos hd] at h
      exact ih h
    · rw [List.dropWhile_cons_of_neg hd] at h
      obtain ⟨rfl, -⟩ := List.cons.injEq .. ▸ h
      simpa using hd

/-! ### Soundness of the terminator search -/

theorem splitTerm_sound : ∀ (l : List Char) {a b : List Char},
    splitTerm l = some (a, b) → l = a ++ ';' :: '"' :: b := by
  intro l
  induction l with
  | nil => intro a b h; simp [splitTerm] at h
  | cons c rest ih =>
    intro a b h
    rw [splitTerm.eq_def] at h
    split at h
    · simp_all
    · rename_i x d ds hguard heq
      injection heq with h1 h2
      subst h1; subst h2
      rcases hsp : splitTerm rest with _ | ⟨a2, b2⟩ <;> rw [hsp] at h
      · simp at h
      · simp only [Option.map_some', Option.some.injEq, Prod.mk.injEq] at h
        obtain ⟨rfl, rfl⟩ := h
        simp [ih hsp]
    · rename_i heq
      simp at heq

theorem splitTerm_none_app : ∀ (a : List Char), splitTerm a = none →
    ∀ b, splitTerm (a ++ ';' :: '"' :: b) = some (a, b) := by
  intro a
  induction a with
  | nil => intro _ b; rfl
  | cons c rest ih =>
    intro h b
    have hsub : splitTerm rest = none := by
      rw [splitTerm.eq_def] at h
      split at h
      · simp at h
      · rename_i x d ds hguard heq
        injection heq with h1 h2
        subst h1; subst h2
        rcases hsp : splitTerm rest with _ | p
        · rfl
        · rw [hsp] at h; simp at h
      · rename_i x heq
        simp at heq
    rw [List.cons_append, splitTerm.eq_def]
    split
    · rename_i x rest' heq
      injection heq with h1 h2
      subst h1
      cases rest with
      | nil => simp at h2
      | cons r rest2 =>
        injection h2 with h3 h4
        subst h3
        exact absurd h (by simp [show splitTerm (';' :: '"' :: rest2) = some ([], rest2) from rfl])
    · rename_i x d ds hguard heq
      injection heq with h1 h2
      subst h1
      rw [← h2] at *
      rw [h2, ih hsub b]
      rfl
    · rename_i x heq
      simp at heq

/-! ### Soundness of the field and metadata parsers -/

theorem parseField_sound {seg k v : List Char} (h : parseField seg = some (k, v)) :
    seg = k ++ ':' :: v ∧ k ≠ [] := by
  unfold parseField at h
  split at h
  · rename_i v' heq
    split_ifs at h with hemp
    simp only [Option.some.injEq, Prod.mk.injEq] at h
    obtain ⟨rfl, rfl⟩ := h
    constructor
    · conv_lhs => rw [← List.takeWhile_append_dropWhile (p := fun c => c != ':') (l := seg)]
      rw [heq]
    · simpa [List.isEmpty_iff] using hemp
  · simp at h

theorem parseSegs_sound : ∀ {segs : List (List Char)} {flds},
    parseSegs segs = some flds → segs = flds.map (fun p => p.1 ++ ':' :: p.2) := by
  intro segs
  induction segs with
  | nil =>
    intro flds h
    simp only [parseSegs, Option.some.injEq] at h
    simp [← h]
  | cons s rest ih =>
    intro flds h
    simp only [parseSegs] at h
    rcases hf : parseField s with _ | ⟨k, v⟩ <;> rw [hf] at h
    · simp at h
    · rcases hr : parseSegs rest with _ | fs <;> rw [hr] at h
      · simp at h
      · simp only [Option.some.injEq] at h
        subst h
        obtain ⟨hs, -⟩ := parseField_sound hf
        simp [List.map_cons, ← ih hr, hs]

theorem parseFields_sound {l : List Char} {flds} (h : parseFields l = some flds) :
    l = renderTags flds ∧ flds ≠ [] := by
  unfold parseFields at h
  have hsegs := parseSegs_sound h
  have hne : l.splitOn '\t' ≠ [] := by
    simpa [List.splitOn] using List.splitOnP_ne_nil (fun c => c == '\t') l
  constructor
  · rw [renderTags, ← hsegs]
    exact (List.intercalate_splitOn l '\t').symm
  · intro hfl
    subst hfl
    simp only [List.map_nil] at hsegs
    exact hne hsegs

theorem parseTail_sound {tail : List Char} {kc : Option Char}
    {flds : List (List Char × List Char)} (h : parseTail tail = some (kc, flds)) :
    (∃ c, kc = some c ∧ c ≠ '\t' ∧
      ((flds = [] ∧ tail = [c]) ∨ (flds ≠ [] ∧ tail = c :: '\t' :: renderTags flds))) ∨
    (kc = none ∧ flds ≠ [] ∧ tail = renderTags flds) := by
  rw [parseTail.eq_def] at h
  split at h
  · rename_i c
    split_ifs at h with hc
    simp only [Option.some.injEq, Prod.mk.injEq] at h
    obtain ⟨rfl, rfl⟩ := h
    exact Or.inl ⟨c, rfl, hc, Or.inl ⟨rfl, rfl⟩⟩
  · rename_i c rest
    split_ifs at h with hc
    rcases hf : parseFields rest with _ | fs <;> rw [hf] at h
    · simp at h
    · simp only [Option.map_some', Option.some.injEq, Prod.mk.injEq] at h
      obtain ⟨rfl, rfl⟩ := h
      obtain ⟨hrest, hne⟩ := parseFields_sound hf
      exact Or.inl ⟨c, rfl, hc, Or.inr ⟨hne, by rw [hrest]⟩⟩
  · rename_i hg1 hg2
    rcases hf : parseFields tail with _ | fs <;> rw [hf] at h
    · simp at h
    · simp only [Option.map_some', Option.some.injEq, Prod.mk.injEq] at h
      obtain ⟨rfl, rfl⟩ := h
      obtain ⟨hrest, hne⟩ := parseFields_sound hf
      exact Or.inr ⟨rfl, hne, hrest⟩

theorem mapFromList_nil : mapFromList [] = [] := rfl

theorem encode_of_lineParseF {L : List Char} {f : LineForm} {r : RawLine}
    (hp : lineParseF L = some (f, r, []))
    (hform : f ≠ LineForm.terminated) (hs : tagsSorted r.fields) :
    (mkItem r).encode = L := by
  unfold lineParseF at hp
  split at hp
  · rename_i x r2 heq1
    by_cases hname : (L.takeWhile (fun c => c != '\t')).isEmpty = true
    · rw [if_pos hname] at hp; exact absurd hp (by simp)
    · rw [if_neg hname] at hp
      have hL : L = L.takeWhile (fun c => c != '\t') ++ '\t' :: r2 := by
        conv_lhs => rw [← List.takeWhile_append_dropWhile (p := fun c => c != '\t') (l := L)]
        rw [heq1]
      split at hp
      · rename_i x2 r4 heq2
        by_cases hpath : (r2.takeWhile (fun c => c != '\t')).isEmpty = true
        · rw [if_pos hpath] at hp; exact absurd hp (by simp)
        · rw [if_neg hpath] at hp
          have hr2 : r2 = r2.takeWhile (fun c => c != '\t') ++ '\t' :: r4 := by
            conv_lhs => rw [← List.takeWhile_append_dropWhile (p := fun c => c != '\t') (l := r2)]
            rw [heq2]
          split at hp
          · -- minimal form
            rename_i hterm
            simp only [Option.some.injEq, Prod.mk.injEq, and_true] at hp
            obtain ⟨rfl, rfl⟩ := hp
            simp only [mkItem, CtagItem.encode, mapFromList_nil, List.length_nil, renderTags]
            conv_rhs => rw [hL]
            conv_rhs => rw [hr2]
            simp [List.append_assoc]
          · -- terminated form: excluded
            rename_i addr hterm
            simp only [Option.some.injEq, Prod.mk.injEq, and_true] at hp
            obtain ⟨rfl, rfl⟩ := hp
            exact absurd rfl hform
          · -- kind or fields after the terminator
            rename_i addr tail hterm
            have hr4 : r4 = addr ++ ';' :: '"' :: '\t' :: tail := splitTerm_sound r4 hterm
            split at hp
            · -- kind character present
              rename_i c flds htail
              simp only [Option.some.injEq, Prod.mk.injEq, and_true] at hp
              obtain ⟨hf, rfl⟩ := hp
              rcases parseTail_sound htail with ⟨c2, hkc, hct, hcase⟩ | ⟨hkc, -, -⟩
              · obtain rfl : c2 = c := by injection hkc with h1; exact h1.symm
                rcases hcase with ⟨rfl, rfl⟩ | ⟨hne, rfl⟩
                · -- no fields: kinded form
                  simp only [mkItem, CtagItem.encode, mapFromList_nil, List.length_nil,
                    TokenKind.from_char, TokenKind.to_token_char]
                  conv_rhs => rw [hL]
                  conv_rhs => rw [hr2]
                  conv_rhs => rw [hr4]
                  simp [List.append_assoc]
                · -- fields present: fielded form
                  have htags : mapFromList flds = flds := mapFromList_sorted_id hs
                  rcases flds with _ | ⟨q, qs⟩
                  · exact absurd rfl hne
                  · simp only [mkItem, CtagItem.encode, htags, List.length_cons,
                      TokenKind.from_char, TokenKind.to_token_char]
                    conv_rhs => rw [hL]
                    conv_rhs => rw [hr2]
                    conv_rhs => rw [hr4]
                    simp [List.append_assoc]
              · simp at hkc
            · -- kind omitted: kindless fielded form
              rename_i flds htail
              simp only [Option.some.injEq, Prod.mk.injEq, and_true] at hp
              obtain ⟨rfl, rfl⟩ := hp
              rcases parseTail_sound htail with ⟨c2, hkc, -, -⟩ | ⟨-, hne, rfl⟩
              · simp at hkc
              · have htags : mapFromList flds = flds := mapFromList_sorted_id hs
                rcases flds with _ | ⟨q, qs⟩
                · exact absurd rfl hne
                · simp only [mkItem, CtagItem.encode, htags, List.length_cons]
                  conv_rhs => rw [hL]
                  conv_rhs => rw [hr2]
                  conv_rhs => rw [hr4]
                  simp [List.append_assoc]
            · -- metadata did not parse: residue is nonempty
              rename_i htail
              simp at hp
          · -- residue directly after the terminator: nonempty, or terminated
            rename_i addr after hg1 hg2 hterm
            simp only [Option.some.injEq, Prod.mk.injEq] at hp
            obtain ⟨rfl, -, -⟩ := hp
            exact absurd rfl hform
      · rename_i hno
        exact absurd hp (by simp)
  · rename_i x hno
    exact absurd hp (by simp)

/-! ### Bridging lemmas for the document parser -/

theorem lineParse_nil : lineParse ([] : List Char) = none := rfl

theorem lineParse_tags_sorted {l : List Char} {e : CtagItem} {res : List Char}
    (h : lineParse l = some (e, res)) : tagsSorted e.tags := by
  unfold lineParse at h
  rcases hf : lineParseF l with _ | ⟨form, raw, residue⟩ <;> rw [hf] at h
  · simp at h
  · simp only [Option.map_some', Option.some.injEq, Prod.mk.injEq] at h
    obtain ⟨rfl, -⟩ := h
    simpa [mkItem] using mapFromList_sorted raw.fields

theorem goF_single {L : List Char} {e : CtagItem} {acc : Finset CtagItem} {fuel : Nat}
    (hnl : '\n' ∉ L) (hp : lineParse L = some (e, [])) (hf : L.length < fuel) :
    goF fuel L acc = Except.ok ([], insert e acc) := by
  cases L with
  | nil => rw [lineParse_nil] at hp; exact absurd hp (by simp)
  | cons c L2 =>
    cases fuel with
    | zero => omega
    | succ f =>
      have hall := takeWhile_all (p := fun x => x != '\n') (l := c :: L2) (bne_all hnl)
      simp only [goF]
      rw [hall.1, hp, hall.2]

theorem goF_cons {L rest : List Char} {e : CtagItem} {acc : Finset CtagItem} {fuel : Nat}
    (hnl : '\n' ∉ L) (hp : lineParse L = some (e, [])) :
    goF (fuel + 1) (L ++ '\n' :: rest) acc = goF fuel rest (insert e acc) := by
  cases L with
  | nil => rw [lineParse_nil] at hp; exact absurd hp (by simp)
  | cons c L2 =>
    have happ := takeWhile_app (p := fun x => x != '\n') (a := c :: L2) (c := '\n')
      (b := rest) (bne_all hnl) (by simp)
    simp only [List.cons_append] at happ ⊢
    simp only [goF]
    rw [happ.1, hp, happ.2]

theorem parse_single {L : List Char} {e : CtagItem} (hnl : '\n' ∉ L)
    (hp : lineParse L = some (e, [])) : CtagItem.parse L = Except.ok {e} := by
  unfold CtagItem.parse Parser.parse
  rw [goF_single hnl hp (Nat.lt_succ_self _)]
  rfl

theorem parse_pair {L M : List Char} {e eM : CtagItem} (hL : '\n' ∉ L) (hM : '\n' ∉ M)
    (hpe : lineParse L = some (e, [])) (hpM : lineParse M = some (eM, [])) :
    CtagItem.parse (L ++ '\n' :: M) = Except.ok (insert eM (insert e ∅)) := by
  unfold CtagItem.parse Parser.parse
  have hlen : (L ++ '\n' :: M).length + 1 = (L.length + M.length + 1) + 1 := by
    simp [List.length_append]
    omega
  rw [hlen, goF_cons hL hpe, goF_single hM hpM (by omega)]

theorem goF_error_suffix : ∀ (fuel : Nat) (input : List Char) (acc : Finset CtagItem)
    {e : NomErr}, goF fuel input acc = Except.error e → e.remainder <:+ input := by
  intro fuel
  induction fuel with
  | zero =>
    intro input acc e h
    cases input with
    | nil => simp [goF] at h
    | cons c input2 => simp [goF] at h
  | succ f ih =>
    intro input acc e h
    cases input with
    | nil => simp [goF] at h
    | cons c input2 =>
      simp only [goF] at h
      rcases hlp : lineParse ((c :: input2).takeWhile (fun x => x != '\n')) with _ | ⟨e2, residue⟩ <;>
        rw [hlp] at h
      · simp only [Except.error.injEq] at h
        subst h
        exact List.suffix_refl _
      · cases residue with
        | nil =>
          rcases hdw : (c :: input2).dropWhile (fun x => x != '\n') with _ | ⟨r0, rest2⟩ <;>
            rw [hdw] at h
          · simp at h
          · refine (ih rest2 _ h).trans ?_
            have h1 : rest2 <:+ r0 :: rest2 := List.suffix_cons r0 rest2
            have h2 : r0 :: rest2 <:+ c :: input2 := hdw ▸ List.dropWhile_suffix _
            exact h1.trans h2
        | cons r residue2 => simp at h

theorem goF_tags_sorted : ∀ (fuel : Nat) (input : List Char) (acc : Finset CtagItem)
    {rest : List Char} {out : Finset CtagItem},
    goF fuel input acc = Except.ok (rest, out) → (∀ a ∈ acc, tagsSorted a.tags) →
    ∀ a ∈ out, tagsSorted a.tags := by
  intro fuel
  induction fuel with
  | zero =>
    intro input acc rest out h hacc
    cases input with
    | nil =>
      simp only [goF, Except.ok.injEq, Prod.mk.injEq] at h
      obtain ⟨-, rfl⟩ := h
      exact hacc
    | cons c input2 =>
      simp only [goF, Except.ok.injEq, Prod.mk.injEq] at h
      obtain ⟨-, rfl⟩ := h
      exact hacc
  | succ f ih =>
    intro input acc rest out h hacc
    cases input with
    | nil =>
      simp only [goF, Except.ok.injEq, Prod.mk.injEq] at h
      obtain ⟨-, rfl⟩ := h
      exact hacc
    | cons c input2 =>
      simp only [goF] at h
      rcases hlp : lineParse ((c :: input2).takeWhile (fun x => x != '\n')) with _ | ⟨e2, residue⟩ <;>
        rw [hlp] at h
      · simp at h
      · have hins : ∀ a ∈ insert e2 acc, tagsSorted a.tags := by
          intro a ha
          rcases Finset.mem_insert.mp ha with rfl | ha2
          · exact lineParse_tags_sorted hlp
          · exact hacc a ha2
        cases residue with
        | nil =>
          rcases hdw : (c :: input2).dropWhile (fun x => x != '\n') with _ | ⟨r0, rest2⟩ <;>
            rw [hdw] at h
          · simp only [Except.ok.injEq, Prod.mk.injEq] at h
            obtain ⟨-, rfl⟩ := h
            exact hins
          · exact ih rest2 _ h hins
        | cons r residue2 =>
          simp only [Except.ok.injEq, Prod.mk.injEq] at h
          obtain ⟨-, rfl⟩ := h
          exact hins

/-! ### The terminated line form -/

theorem lineParseF_terminated {n p a : List Char} (hn : n ≠ []) (hnt : '\t' ∉ n)
    (hp : p ≠ []) (hpt : '\t' ∉ p) (ha : splitTerm a = none) :
    lineParseF (n ++ '\t' :: (p ++ '\t' :: (a ++ [';', '"']))) =
      some (LineForm.terminated, ⟨n, p, a, none, []⟩, []) := by
  have h1 := takeWhile_app (p := fun c => c != '\t') (a := n) (c := '\t')
    (b := p ++ '\t' :: (a ++ [';', '"'])) (bne_all hnt) (by simp)
  have h2 := takeWhile_app (p := fun c => c != '\t') (a := p) (c := '\t')
    (b := a ++ [';', '"']) (bne_all hpt) (by simp)
  have h3 : splitTerm (a ++ [';', '"']) = some (a, []) := splitTerm_none_app a ha []
  have hne : n.isEmpty = false := by
    cases n with
    | nil => exact absurd rfl hn
    | cons c cs => rfl
  have hpe : p.isEmpty = false := by
    cases p with
    | nil => exact absurd rfl hp
    | cons c cs => rfl
  unfold lineParseF
  rw [h1.2]
  simp only [h1.1, hne, Bool.false_eq_true, if_false]
  rw [h2.2]
  simp only [h2.1, hpe, Bool.false_eq_true, if_false]
  rw [h3]

/-! ### The locator's fallback loop -/

theorem first_success_stay_ok {α β γ : Type} (f : α → Except γ β) (b : β) :
    ∀ l : List α,
      l.foldl (fun outcome x =>
        match outcome with
        | Except.ok b => Except.ok b
        | Except.error _ => f x) (Except.ok b) = Except.ok b := by
  intro l
  induction l with
  | nil => rfl
  | cons y ys ih => simpa using ih

theorem first_success_ok {α β γ : Type} (f : α → Except γ β) :
    ∀ (pre : List α) (d : γ) (x : α) (post : List α) (b : β),
    (∀ q ∈ pre, (f q).isOk = false) → f x = Except.ok b →
    first_success (pre ++ x :: post) d f = Except.ok b := by
  intro pre
  induction pre with
  | nil =>
    intro d x post b hpre hx
    simp only [List.nil_append, first_success, List.foldl_cons]
    rw [hx]
    exact first_success_stay_ok f b post
  | cons p pre2 ih =>
    intro d x post b hpre hx
    have hp : (f p).isOk = false := hpre p (List.mem_cons_self _ _)
    rcases hfp : f p with e2 | b2
    · simp only [List.cons_append, first_success, List.foldl_cons] at ih ⊢
      rw [hfp]
      exact ih e2 x post b (fun q hq => hpre q (List.mem_cons_of_mem _ hq)) hx
    · rw [hfp] at hp
      simp [Except.isOk, Except.toBool] at hp

theorem first_success_err {α β γ : Type} (f : α → Except γ β) :
    ∀ (pre : List α) (d : γ) (x : α) (e : γ),
    (∀ q ∈ pre, (f q).isOk = false) → f x = Except.error e →
    first_success (pre ++ [x]) d f = Except.error e := by
  intro pre
  induction pre with
  | nil =>
    intro d x e hpre hx
    simp only [List.nil_append, first_success, List.foldl_cons, List.foldl_nil]
    rw [hx]
  | cons p pre2 ih =>
    intro d x e hpre hx
    have hp : (f p).isOk = false := hpre p (List.mem_cons_self _ _)
    rcases hfp : f p with e2 | b2
    · simp only [List.cons_append, first_success, List.foldl_cons] at ih ⊢
      rw [hfp]
      exact ih e2 x e (fun q hq => hpre q (List.mem_cons_of_mem _ hq)) hx
    · rw [hfp] at hp
      simp [Except.isOk, Except.toBool] at hp

theorem read_ok {fs : List Char → Except IOError (List Char)}
    {pre post : List (List Char)} {x c : List Char}
    (hpre : ∀ q ∈ pre, (fs q).isOk = false) (hx : fs x = Except.ok c) :
    TagsReader.read fs ⟨pre ++ x :: post⟩ = Except.ok c := by
  unfold TagsReader.read
  rw [first_success_ok fs pre _ x post c hpre hx]
  rfl

theorem read_err {fs : List Char → Except IOError (List Char)}
    {pre : List (List Char)} {x : List Char} {e : IOError}
    (hpre : ∀ q ∈ pre, (fs q).isOk = false) (hx : fs x = Except.error e) :
    TagsReader.read fs ⟨pre ++ [x]⟩ = Except.error (pre ++ [x], e) := by
  unfold TagsReader.read
  rw [first_success_err fs pre _ x e hpre hx]
  rfl

/-! ### The claims -/

/-- C1 counterexample: the terminated line `n\tf\t1;"` is accepted by the
parser — it parses to the entry (n, f, 1, Undefined, no fields) — but
encoding that entry yields the minimal form `n\tf\t1`, not the original
line.  The round-trip law as stated therefore fails on this input. -/
theorem C1_counterexample :
    CtagItem.parse "n\tf\t1;\"".toList =
      Except.ok {⟨['n'], ['f'], ['1'], none, [], TokenKind.Undefined⟩} ∧
    CtagItem.encode ⟨['n'], ['f'], ['1'], none, [], TokenKind.Undefined⟩ = "n\tf\t1".toList ∧
    CtagItem.encode ⟨['n'], ['f'], ['1'], none, [], TokenKind.Undefined⟩ ≠ "n\tf\t1;\"".toList := by
  refine ⟨by decide, by decide, by decide⟩

/-- C1 (amended): for every line `L` the parser accepts that is not of the
terminated form and whose extension fields appear in strictly ascending key
order, parsing yields exactly one entry and encoding that entry reproduces
`L` exactly. -/
theorem C1_roundtrip_amended (L : List Char) (f : LineForm) (r : RawLine)
    (hnl : '\n' ∉ L) (hp : lineParseF L = some (f, r, []))
    (hform : f ≠ LineForm.terminated) (hs : tagsSorted r.fields) :
    CtagItem.parse L = Except.ok {mkItem r} ∧ (mkItem r).encode = L := by
  have hl : lineParse L = some (mkItem r, []) := by
    unfold lineParse
    rw [hp]
    rfl
  exact ⟨parse_single hnl hl, encode_of_lineParseF hp hform hs⟩

/-- C1 witness: the round-trip law holds at the spec's §8 literal-scenario
line. -/
theorem C1_roundtrip_amended_witness :
    CtagItem.parse rubyLine = Except.ok {mkItem rubyRaw} ∧ (mkItem rubyRaw).encode = rubyLine :=
  C1_roundtrip_amended rubyLine LineForm.fielded rubyRaw (by decide) (by decide)
    (by decide) (by decide)

/-- C2: the terminated line form — name, path, then an address followed
immediately by `;"` and nothing else — is accepted, and parses to an entry
with kind `Undefined` and an empty extension-field map. -/
theorem C2_terminated_line (n p a : List Char) (hn : n ≠ []) (hnt : '\t' ∉ n) (hnn : '\n' ∉ n)
    (hpe : p ≠ []) (hpt : '\t' ∉ p) (hpn : '\n' ∉ p) (han : '\n' ∉ a)
    (hterm : splitTerm a = none) :
    CtagItem.parse (n ++ '\t' :: (p ++ '\t' :: (a ++ [';', '"']))) =
      Except.ok {(⟨n, p, a, Language.resolve p, [], TokenKind.Undefined⟩ : CtagItem)} := by
  have hl : lineParse (n ++ '\t' :: (p ++ '\t' :: (a ++ [';', '"']))) =
      some (mkItem ⟨n, p, a, none, []⟩, []) := by
    unfold lineParse
    rw [lineParseF_terminated hn hnt hpe hpt hterm]
    rfl
  have hnl : '\n' ∉ (n ++ '\t' :: (p ++ '\t' :: (a ++ [';', '"']))) := by
    simp only [List.mem_append, List.mem_cons, not_or]
    exact ⟨hnn, by decide, hpn, by decide, han, by decide⟩
  have h := parse_single hnl hl
  simpa [mkItem, mapFromList_nil, TokenKind.from_char] using h

/-- C2 witness: the concrete terminated line `n\tf\t1;"`. -/
theorem C2_terminated_line_witness :
    CtagItem.parse (['n'] ++ '\t' :: (['f'] ++ '\t' :: (['1'] ++ [';', '"']))) =
      Except.ok {(⟨['n'], ['f'], ['1'], Language.resolve ['f'], [], TokenKind.Undefined⟩ : CtagItem)} :=
  C2_terminated_line ['n'] ['f'] ['1'] (by decide) (by decide) (by decide) (by decide)
    (by decide) (by decide) (by decide) (by decide)

/-- C3: `encode` selects the textual form solely from the entry's content:
no fields and `Undefined` kind gives the minimal form without `;"`;
fields and `Undefined` kind gives `address;"` followed directly by the
field list with no kind character; no fields and a present kind gives
`address;"` and the single kind character; fields and a present kind gives
`address;"`, the kind character, then the field list. -/
theorem C3_encode_form_selection (e : CtagItem) :
    CtagItem.encode e =
      if e.tags = [] then
        (if e.kind = TokenKind.Undefined then minimalForm e else kindedForm e)
      else
        (if e.kind = TokenKind.Undefined then kindlessFieldedForm e else fieldedForm e) := by
  obtain ⟨n, fp, ad, lang, tags, kind⟩ := e
  cases tags <;> cases kind <;>
    simp [CtagItem.encode, minimalForm, kindedForm, kindlessFieldedForm, fieldedForm]

/-- C4: parsing is set-valued — a text consisting of the same accepted line
twice parses to a single entry, and swapping the order of two lines does
not change the result. -/
theorem C4_parse_dedup (L M : List Char) (e eM : CtagItem) (hL : '\n' ∉ L) (hM : '\n' ∉ M)
    (hpe : lineParse L = some (e, [])) (hpM : lineParse M = some (eM, [])) :
    CtagItem.parse (L ++ '\n' :: L) = Except.ok {e} ∧
    CtagItem.parse (L ++ '\n' :: M) = CtagItem.parse (M ++ '\n' :: L) := by
  constructor
  · rw [parse_pair hL hL hpe hpe]
    simp
  · rw [parse_pair hL hM hpe hpM, parse_pair hM hL hpM hpe]
    exact congrArg _ (Finset.Insert.comm _ _ _)

/-- C4 witness: duplicate and swapped concrete lines. -/
theorem C4_parse_dedup_witness :
    CtagItem.parse ("a\tb\t1".toList ++ '\n' :: "a\tb\t1".toList) =
      Except.ok {mkItem ⟨['a'], ['b'], ['1'], none, []⟩} ∧
    CtagItem.parse ("a\tb\t1".toList ++ '\n' :: "c\td\t2".toList) =
      CtagItem.parse ("c\td\t2".toList ++ '\n' :: "a\tb\t1".toList) :=
  C4_parse_dedup "a\tb\t1".toList "c\td\t2".toList (mkItem ⟨['a'], ['b'], ['1'], none, []⟩)
    (mkItem ⟨['c'], ['d'], ['2'], none, []⟩) (by decide) (by decide) (by decide) (by decide)

/-- C5: two entries are equal exactly when all their attributes agree, and
the field map built from an input line depends only on the key-value
content, not on the textual order of the fields. -/
theorem C5_entry_equality :
    (∀ e₁ e₂ : CtagItem, e₁ = e₂ ↔
      (e₁.name = e₂.name ∧ e₁.file_path = e₂.file_path ∧ e₁.address = e₂.address ∧
        e₁.language = e₂.language ∧ e₁.kind = e₂.kind ∧ e₁.tags = e₂.tags)) ∧
    (∀ fs₁ fs₂ : List (List Char × List Char), fs₁.Perm fs₂ →
      List.Pairwise (fun p q => p.1 ≠ q.1) fs₁ → mapFromList fs₁ = mapFromList fs₂) := by
  constructor
  · intro e₁ e₂
    obtain ⟨n1, f1, a1, l1, t1, k1⟩ := e₁
    obtain ⟨n2, f2, a2, l2, t2, k2⟩ := e₂
    simp only [CtagItem.mk.injEq]
    tauto
  · exact fun fs₁ fs₂ hperm hnd => mapFromList_perm hperm hnd

/-- C5 witness: the same two fields in either textual order build the same
map. -/
theorem C5_entry_equality_witness :
    mapFromList [("b".toList, "1".toList), ("a".toList, "2".toList)] =
      mapFromList [("a".toList, "2".toList), ("b".toList, "1".toList)] :=
  C5_entry_equality.2 _ _ (by decide) (by decide)

/-- C6: `CtagItem::parse` returns `Ok` exactly when the grammar consumes
the entire input; a successful inner parse with nonempty residue yields
`IncompleteParse`; an inner failure yields `FailedParse` carrying the
unmatched remainder (a suffix of the input); no entries are returned in
either error case. -/
theorem C6_parse_errors (s : List Char) :
    (∀ out : Finset CtagItem,
      CtagItem.parse s = Except.ok out ↔ Parser.parse s = Except.ok ([], out)) ∧
    (∀ (rest : List Char) (out : Finset CtagItem),
      Parser.parse s = Except.ok (rest, out) → rest ≠ [] →
      CtagItem.parse s = Except.error CtagsParseError.IncompleteParse) ∧
    (∀ e : NomErr, Parser.parse s = Except.error e →
      CtagItem.parse s = Except.error (CtagsParseError.FailedParse e) ∧ e.remainder <:+ s) := by
  refine ⟨?_, ?_, ?_⟩
  · intro out
    constructor
    · intro h
      unfold CtagItem.parse at h
      rcases hp : Parser.parse s with e2 | ⟨rest, o⟩ <;> rw [hp] at h
      · simp at h
      · cases rest with
        | nil =>
          simp only [Except.ok.injEq] at h
          rw [h]
        | cons r rs => simp at h
    · intro h
      unfold CtagItem.parse
      rw [h]
  · intro rest out h hne
    unfold CtagItem.parse
    rw [h]
    cases rest with
    | nil => exact absurd rfl hne
    | cons r rs => rfl
  · intro e he
    refine ⟨?_, ?_⟩
    · unfold CtagItem.parse
      rw [he]
    · unfold Parser.parse at he
      exact goF_error_suffix _ _ _ he

/-- C6 witness: residue within a line yields `IncompleteParse`; a line
matching no alternative yields `FailedParse` carrying it. -/
theorem C6_parse_errors_witness :
    CtagItem.parse "n\tf\t1;\"x".toList = Except.error CtagsParseError.IncompleteParse ∧
    CtagItem.parse "n\tf\t1\nEXTRA GARBAGE".toList =
      Except.error (CtagsParseError.FailedParse ⟨"EXTRA GARBAGE".toList, ErrorKind.Tag⟩) :=
  ⟨(C6_parse_errors "n\tf\t1;\"x".toList).2.1 ['x']
      {mkItem ⟨['n'], ['f'], ['1'], none, []⟩} (by decide) (by decide),
    ((C6_parse_errors "n\tf\t1\nEXTRA GARBAGE".toList).2.2
      ⟨"EXTRA GARBAGE".toList, ErrorKind.Tag⟩ (by decide)).1⟩

/-- C7: every entry produced by parsing stores its extension fields in
strictly ascending key order, and for an entry with fields `encode` emits
exactly that stored list, each field rendered as `key:value` and joined by
single tabs, after the fixed front part. -/
theorem C7_fields_ascending :
    (∀ (s : List Char) (out : Finset CtagItem), CtagItem.parse s = Except.ok out →
      ∀ e ∈ out, tagsSorted e.tags) ∧
    (∀ e : CtagItem, e.tags ≠ [] →
      CtagItem.encode e = fieldsFront e ++ renderTags e.tags) := by
  constructor
  · intro s out h e he
    unfold CtagItem.parse at h
    rcases hp : Parser.parse s with e2 | ⟨rest, o⟩ <;> rw [hp] at h
    · simp at h
    · cases rest with
      | nil =>
        simp only [Except.ok.injEq] at h
        subst h
        unfold Parser.parse at hp
        exact goF_tags_sorted _ _ _ hp (by simp) e he
      | cons r rs => simp at h
  · intro e hne
    obtain ⟨n, fp, ad, lang, tags, kind⟩ := e
    cases tags with
    | nil => exact absurd rfl hne
    | cons q qs =>
      cases kind <;>
        simp [CtagItem.encode, fieldsFront, List.append_assoc]

/-- C7 witness: the entry parsed from the §8 literal-scenario line. -/
theorem C7_fields_ascending_witness :
    tagsSorted (mkItem rubyRaw).tags ∧
    CtagItem.encode (mkItem rubyRaw) = fieldsFront (mkItem rubyRaw) ++ renderTags (mkItem rubyRaw).tags :=
  ⟨C7_fields_ascending.1 rubyLine {mkItem rubyRaw} (by decide) (mkItem rubyRaw) (by decide),
    C7_fields_ascending.2 (mkItem rubyRaw) (by decide)⟩

/-- C8: the locator tries its candidate paths strictly in list order and
uses the contents of the first readable one; when no candidate is
readable, `read` fails with the full attempted list paired with the last
underlying failure, and `load` wraps that in `NoCtagsFile`. -/
theorem C8_locator_order (fs : List Char → Except IOError (List Char))
    (pre post : List (List Char)) (x c : List Char) (err : IOError) :
    ((∀ q ∈ pre, (fs q).isOk = false) → fs x = Except.ok c →
      TagsReader.read fs ⟨pre ++ x :: post⟩ = Except.ok c ∧
      TagsReader.load fs ⟨pre ++ x :: post⟩ = TagsReader.load fs ⟨[x]⟩) ∧
    ((∀ q ∈ pre, (fs q).isOk = false) → fs x = Except.error err →
      TagsReader.read fs ⟨pre ++ [x]⟩ = Except.error (pre ++ [x], err) ∧
      TagsReader.load fs ⟨pre ++ [x]⟩ =
        Except.error (ReadCtagsError.NoCtagsFile (pre ++ [x], err))) := by
  constructor
  · intro hpre hx
    have h1 : TagsReader.read fs ⟨pre ++ x :: post⟩ = Except.ok c := read_ok hpre hx
    refine ⟨h1, ?_⟩
    have h2 : TagsReader.read fs ⟨[x]⟩ = Except.ok c :=
      @read_ok fs [] [] x c (by simp) hx
    unfold TagsReader.load
    rw [h1, h2]
  · intro hpre hx
    have h1 : TagsReader.read fs ⟨pre ++ [x]⟩ = Except.error (pre ++ [x], err) :=
      read_err hpre hx
    refine ⟨h1, ?_⟩
    unfold TagsReader.load
    rw [h1]

/-- C8 witness: with only `B` readable, `[A, B, C]` loads `B`'s contents;
with nothing readable, `[A, Q]` fails listing both paths and the last
error. -/
theorem C8_locator_order_witness :
    (TagsReader.read fsDemo ⟨["A".toList, "B".toList, "C".toList]⟩ = Except.ok "n\tf\t1".toList ∧
      TagsReader.load fsDemo ⟨["A".toList, "B".toList, "C".toList]⟩ =
        TagsReader.load fsDemo ⟨["B".toList]⟩) ∧
    (TagsReader.read fsDemo ⟨["A".toList, "Q".toList]⟩ =
        Except.error (["A".toList, "Q".toList], ⟨IOErrorKind.Other, "missing".toList⟩) ∧
      TagsReader.load fsDemo ⟨["A".toList, "Q".toList]⟩ =
        Except.error (ReadCtagsError.NoCtagsFile
          (["A".toList, "Q".toList], ⟨IOErrorKind.Other, "missing".toList⟩))) :=
  ⟨(C8_locator_order fsDemo ["A".toList] ["C".toList] "B".toList "n\tf\t1".toList
      ⟨IOErrorKind.Other, "missing".toList⟩).1 (by decide) (by decide),
    (C8_locator_order fsDemo ["A".toList] [] "Q".toList [] ⟨IOErrorKind.Other, "missing".toList⟩).2
      (by decide) (by decide)⟩

/-- C9: the default candidate path list is exactly `.git/tags`, `tags`,
`tmp/tags`, in that order. -/
theorem C9_default_paths :
    TagsReader.default.filenames = [".git/tags".toList, "tags".toList, "tmp/tags".toList] := rfl

/-- C10: with an empty candidate list, `read` and `load` return (without
consulting the file system at all — the result is the same for every
oracle `fs`) the `NoCtagsFile` error with an empty attempted-path list and
the synthesized placeholder error `No file provided`. -/
theorem C10_empty_paths (fs : List Char → Except IOError (List Char)) :
    TagsReader.read fs ⟨[]⟩ =
      Except.error ([], ⟨IOErrorKind.Other, "No file provided".toList⟩) ∧
    TagsReader.load fs ⟨[]⟩ =
      Except.error (ReadCtagsError.NoCtagsFile
        ([], ⟨IOErrorKind.Other, "No file provided".toList⟩)) :=
  ⟨rfl, rfl⟩

/-- The source's own `bidirectional_encoding` test (`ctag_item.rs`): each
of the four test lines parses to a single entry that encodes back to the
original line. -/
theorem bidirectional_encoding :
    ((CtagItem.parse "ClassMethod\tpath/to/file.rb\t2;\"\tS\tclass:File".toList).map
        (fun s => s.image CtagItem.encode) =
      Except.ok {"ClassMethod\tpath/to/file.rb\t2;\"\tS\tclass:File".toList}) ∧
    ((CtagItem.parse "ClassMethod\tpath/to/file.rb\t2;\"\tS\tclass:File\tmodule:Foobar".toList).map
        (fun s => s.image CtagItem.encode) =
      Except.ok {"ClassMethod\tpath/to/file.rb\t2;\"\tS\tclass:File\tmodule:Foobar".toList}) ∧
    ((CtagItem.parse "ClassMethod\tpath/to/file.rb\t2".toList).map
        (fun s => s.image CtagItem.encode) =
      Except.ok {"ClassMethod\tpath/to/file.rb\t2".toList}) ∧
    ((CtagItem.parse "ClassMethod\tpath/to/file.rb\t2;\"\tS".toList).map
        (fun s => s.image CtagItem.encode) =
      Except.ok {"ClassMethod\tpath/to/file.rb\t2;\"\tS".toList}) := by
  refine ⟨by decide, by decide, by decide, by decide⟩

end ReadCtags
